import Mathlib

/-!
Verification development for the `ghopper` CLI (src/ghopper/cli.py).

Python strings are modelled as `List Char` (sequences of code points).
Character-level stdlib behaviour (`str.lower`, `str.strip`, the regex
classes `\w`, `str.isalpha`) is modelled at ASCII granularity: Python's
Unicode tables extend these to non-ASCII code points, which no claim
exercises; on every ASCII string the model agrees exactly with CPython.

`urllib.parse.urlparse` is modelled after CPython's `urlsplit`
(unsafe-byte removal, scheme split, netloc split with the bracketed-host
validation, fragment/query split) plus `urlparse`'s params split.  The
innermost bracketed-host validator (`_check_bracketed_host`, which
delegates to the `ipaddress` stdlib module and is Python-version
dependent) is abstracted as a boolean parameter `cb`: `cb h = true`
means the validator accepts `h`, `false` means it raises `ValueError`.
Results are `Option`-valued: `none` models a raised `ValueError`.
-/

namespace Ghopper

/-- Python whitespace for `str.strip()` (ASCII/Latin-1 part: the code
points CPython treats as space below U+0100, minus the Unicode-only ones
no claim uses). -/
def isPySpace (c : Char) : Bool :=
  c == ' ' || c == '\t' || c == '\n' || c == '\x0b' || c == '\x0c' || c == '\r' ||
  c == '\x1c' || c == '\x1d' || c == '\x1e' || c == '\x1f' || c == '\x85'

/-- Model of `str.lower()` (ASCII granularity): `Char.toLower` maps
`A`-`Z` to `a`-`z` and fixes everything else. -/
def pyLower (l : List Char) : List Char := l.map Char.toLower

/-- Left half of `str.strip()`. -/
def pyStripLeft (l : List Char) : List Char := l.dropWhile isPySpace

/-- Right half of `str.strip()`. -/
def pyStripRight (l : List Char) : List Char := (l.reverse.dropWhile isPySpace).reverse

/-- Model of `str.strip()` with no argument. -/
def pyStrip (l : List Char) : List Char := pyStripRight (pyStripLeft l)

/-- Model of `str.startswith(pre)`. -/
def startsWithL : List Char → List Char → Bool
  | [], _ => true
  | _ :: _, [] => false
  | p :: ps, c :: cs => p == c && startsWithL ps cs

/-- Model of Python's substring test `pat in s`. -/
def containsSub (pat : List Char) : List Char → Bool
  | [] => startsWithL pat []
  | c :: rest => startsWithL pat (c :: rest) || containsSub pat rest

/-- Model of `url.endswith(".git")` (a suffix is a reversed prefix). -/
def dotGitEnds (l : List Char) : Bool := startsWithL (".git".data.reverse) l.reverse

/-- The `.git`-stripping step of `normalize_repo_url`:
`if url.endswith(".git"): url = url[:-4]`. -/
def degit (l : List Char) : List Char := if dotGitEnds l then l.take (l.length - 4) else l

/-- The shared preprocessing of `normalize_repo_url`: `url.strip()`
followed by the `.git` strip. -/
def preprocess (l : List Char) : List Char := degit (pyStrip l)

/-- Model of `s.split(sep)[0]`: the characters before the first `sep`
(the whole string when `sep` is absent). -/
def splitHead (sep : Char) (l : List Char) : List Char := l.takeWhile (fun c => !(c == sep))

/-- Model of `s.strip("/")`. -/
def stripSlashes (l : List Char) : List Char :=
  ((l.dropWhile (fun c => c == '/')).reverse.dropWhile (fun c => c == '/')).reverse

/-- The regex class `\w` (ASCII granularity). -/
def isWordChar (c : Char) : Bool := c.isAlphanum || c == '_'

/-- The regex class `[\w.-]` (host part of the SSH pattern). -/
def isHostChar (c : Char) : Bool := isWordChar c || c == '.' || c == '-'

/-- The regex path class of the SSH pattern: word chars, dot, slash,
hyphen. -/
def isPathChar (c : Char) : Bool := isWordChar c || c == '.' || c == '/' || c == '-'

/-- Model of the SSH-form regex match of `normalize_repo_url`
(`re.match` with pattern `git@`, a host group of `[\w.-]` chars, `:`, and
a path group of word chars, dot, slash, hyphen): anchored at the start,
unanchored at the end.  Because `:` is outside `[\w.-]`, the greedy
first group is exactly the maximal run of host characters after `git@`,
and the second group the maximal run of path characters after the colon;
both must be non-empty. -/
def sshMatch (l : List Char) : Option (List Char × List Char) :=
  if startsWithL "git@".data l then
    let rest := l.drop 4
    let host := rest.takeWhile isHostChar
    match rest.dropWhile isHostChar with
    | ':' :: rest2 =>
      let path := rest2.takeWhile isPathChar
      if host.isEmpty || path.isEmpty then none else some (host, path)
    | _ => none
  else none

/-- The components of `urllib.parse.urlparse` that the source reads
(`params` is split off `path` as CPython does but not stored). -/
structure UrlParts where
  scheme : List Char
  netloc : List Char
  path : List Char
  query : List Char
  fragment : List Char
deriving DecidableEq, Repr

/-- CPython `scheme_chars`. -/
def isSchemeChar (c : Char) : Bool := c.isAlphanum || c == '+' || c == '-' || c == '.'

/-- CPython removes `_UNSAFE_URL_BYTES_TO_REMOVE = ["\t", "\r", "\n"]`
from the URL before parsing. -/
def unsafeFilter (l : List Char) : List Char :=
  l.filter (fun c => !(c == '\t' || c == '\r' || c == '\n'))

/-- CPython `urlsplit` scheme detection: split at the first `:` when the
text before it is non-empty, starts with an ASCII letter, and consists of
scheme characters; the scheme is lowercased. -/
def schemeSplit (l : List Char) : List Char × List Char :=
  let pre := l.takeWhile (fun c => !(c == ':'))
  if pre.length < l.length && !pre.isEmpty &&
      (match l.head? with | some c => c.isAlpha | none => false) && pre.all isSchemeChar
  then (pyLower pre, l.drop (pre.length + 1))
  else ([], l)

/-- The characters that end the netloc in `_splitnetloc`. -/
def isNetDelim (c : Char) : Bool := c == '/' || c == '?' || c == '#'

/-- CPython `netloc.partition("[")[2].partition("]")[0]`. -/
def bracketContent (netloc : List Char) : List Char :=
  ((netloc.dropWhile (fun c => !(c == '['))).drop 1).takeWhile (fun c => !(c == ']'))

/-- CPython `urlsplit` netloc extraction: only when the remainder starts
with `//`.  An unbalanced `[`/`]` raises `ValueError` (modelled `none`);
a balanced pair sends the bracketed host to the abstracted validator
`cb`. -/
def netlocSplit (cb : List Char → Bool) (l : List Char) : Option (List Char × List Char) :=
  if startsWithL "//".data l then
    let after := l.drop 2
    let netloc := after.takeWhile (fun c => !(isNetDelim c))
    let rest := after.dropWhile (fun c => !(isNetDelim c))
    if (netloc.contains '[' && !(netloc.contains ']')) ||
        (netloc.contains ']' && !(netloc.contains '[')) then none
    else if netloc.contains '[' && netloc.contains ']' then
      if cb (bracketContent netloc) then some (netloc, rest) else none
    else some (netloc, rest)
  else some ([], l)

/-- CPython `urlparse`'s `_splitparams`, applied to the path remainder:
drop a `;params` suffix of the last path segment. -/
def splitParams (l : List Char) : List Char :=
  if l.contains '/' then
    let lastSeg := (l.reverse.takeWhile (fun c => !(c == '/'))).reverse
    if lastSeg.contains ';' then
      l.take (l.length - lastSeg.length) ++ lastSeg.takeWhile (fun c => !(c == ';'))
    else l
  else l.takeWhile (fun c => !(c == ';'))

/-- Model of `urllib.parse.urlparse` on a `str` argument (see the file
header for the scope of the model).  `none` models a raised
`ValueError`. -/
def urlparse (cb : List Char → Bool) (l0 : List Char) : Option UrlParts :=
  let l1 := unsafeFilter l0
  let sp := schemeSplit l1
  match netlocSplit cb sp.2 with
  | none => none
  | some nl =>
    let afterFrag := nl.2.takeWhile (fun c => !(c == '#'))
    let fragment := (nl.2.dropWhile (fun c => !(c == '#'))).drop 1
    let afterQuery := afterFrag.takeWhile (fun c => !(c == '?'))
    let query := (afterFrag.dropWhile (fun c => !(c == '?'))).drop 1
    some ⟨sp.1, nl.1, splitParams afterQuery, query, fragment⟩

/-- `normalize_repo_url` of src/ghopper/cli.py.  `none` models the
`ValueError` that `urlparse` can raise; every other path returns a
string. -/
def normalize_repo_url (cb : List Char → Bool) (url0 : List Char) : Option (List Char) :=
  let url := preprocess url0
  if startsWithL "git@".data url then
    match sshMatch url with
    | some hp => some (pyLower (splitHead '-' hp.1 ++ '/' :: hp.2))
    | none => some (pyLower url)
  else if startsWithL "http".data url then
    match urlparse cb url with
    | none => none
    | some parts =>
      some (pyLower (stripSlashes (splitHead '-' (splitHead ':' parts.netloc) ++ parts.path)))
  else some (pyLower url)

/-- A concrete instance of the abstracted bracketed-host validator, for
closed evaluations (the runs below never consult it). -/
def cbTrue : List Char → Bool := fun _ => true

/-- A repository entry of the registry: `{"url": ..., "branches": {...}}`.
Python dicts iterate in insertion order, so a dict is modelled as an
association list. -/
structure RepoEntry where
  url : List Char
  branches : List (List Char × List Char)
deriving DecidableEq, Repr

/-- The configuration: `{"repos": {...}}`. -/
structure Config where
  repos : List (List Char × RepoEntry)
deriving DecidableEq, Repr

/-- Python `dict.get(k)`: the value at the first matching key. -/
def lookupD {V : Type} : List (List Char × V) → List Char → Option V
  | [], _ => none
  | p :: rest, k => if p.1 == k then some p.2 else lookupD rest k

/-- Python `d[k] = v`: replace the value in place when the key is
present (dict keys keep their position), append otherwise. -/
def dictSet {V : Type} (l : List (List Char × V)) (k : List Char) (v : V) :
    List (List Char × V) :=
  if l.any (fun p => p.1 == k) then
    l.map (fun p => if p.1 == k then (k, v) else p)
  else l ++ [(k, v)]

/-- Python truthiness of an optional string: `None` and `""` are falsy. -/
def truthyO : Option (List Char) → Bool
  | none => false
  | some s => !s.isEmpty

/-- The loop of `find_alias_by_repo_url`: normalize each stored URL in
iteration order and return the first alias whose key matches; a
`ValueError` raised by a stored URL's normalization propagates
(`none`). -/
def findLoop (cb : List Char → Bool) (normalized : List Char) :
    List (List Char × RepoEntry) → Option (Option (List Char))
  | [] => some none
  | p :: rest =>
    match normalize_repo_url cb p.2.url with
    | none => none
    | some v => if v = normalized then some (some p.1) else findLoop cb normalized rest

/-- `find_alias_by_repo_url` of src/ghopper/cli.py.  The outer `Option`
models a raised `ValueError`; the inner one is the found-or-absent
result. -/
def find_alias_by_repo_url (cb : List Char → Bool) (config : Config)
    (repo_url : List Char) : Option (Option (List Char)) :=
  match normalize_repo_url cb repo_url with
  | none => none
  | some normalized => findLoop cb normalized config.repos

/-- Model of `pathlib.Path(s).name`: the last kept component of the
path (empty components and lone dots are dropped at parse). -/
def pathName (l : List Char) : List Char :=
  let comps := (l.foldr
    (fun c acc =>
      match acc with
      | [] => [[c]]
      | h :: t => if c == '/' then [] :: h :: t else (c :: h) :: t) [[]]).filter
    (fun c => !c.isEmpty && !(c == ".".data))
  match comps.getLast? with
  | some n => n
  | none => []

/-- Model of `s.replace(".git", "")`: remove every (left-to-right,
non-overlapping) occurrence. -/
def removeDotGitAll : List Char → List Char
  | [] => []
  | '.' :: 'g' :: 'i' :: 't' :: rest => removeDotGitAll rest
  | c :: rest => c :: removeDotGitAll rest

/-- One slot of the dict comprehension in `add`: kept only when the
supplied value is truthy. -/
def optSlot (name : List Char) : Option (List Char) → List (List Char × List Char)
  | none => []
  | some s => if !s.isEmpty then [(name, s)] else []

/-- The branches dict built by `add`:
`{k: v for k, v in {"prod": prod, "pre": pre, "dev": dev}.items() if v}`. -/
def mkBranches (prod pre dev : Option (List Char)) : List (List Char × List Char) :=
  optSlot "prod".data prod ++ optSlot "pre".data pre ++ optSlot "dev".data dev

/-- The registry mutation of the `add` command, given the URL (from the
`--url` option or the current repo's remote): normalize it, derive the
alias from the normalized URL's last path component when the given alias
is falsy, and store the entry.  `none` models the `ValueError` that
normalization can raise. -/
def addRepos (cb : List Char → Bool) (repos : List (List Char × RepoEntry))
    (alias? : Option (List Char)) (url : List Char) (prod pre dev : Option (List Char)) :
    Option (List (List Char × RepoEntry)) :=
  match normalize_repo_url cb url with
  | none => none
  | some nu =>
    let al := if truthyO alias? then alias?.getD [] else removeDotGitAll (pathName nu)
    some (dictSet repos al ⟨"https://".data ++ nu, mkBranches prod pre dev⟩)

/-- The branch updates of the `modify` command: each supplied truthy
option overwrites its slot (`if prod: repo["branches"]["prod"] = prod`,
and likewise for `pre` and `dev`). -/
def modifyBranches (b : List (List Char × List Char)) (prod pre dev : Option (List Char)) :
    List (List Char × List Char) :=
  let b1 := if truthyO prod then dictSet b "prod".data (prod.getD []) else b
  let b2 := if truthyO pre then dictSet b1 "pre".data (pre.getD []) else b1
  if truthyO dev then dictSet b2 "dev".data (dev.getD []) else b2

/-- The registry mutation of the `modify` command for a resolved alias:
`none` when the alias is absent (reported, nothing persisted), otherwise
the registry with that entry's branches updated in place. -/
def modifyRepos (repos : List (List Char × RepoEntry)) (al : List Char)
    (prod pre dev : Option (List Char)) : Option (List (List Char × RepoEntry)) :=
  match lookupD repos al with
  | none => none
  | some e => some (dictSet repos al ⟨e.url, modifyBranches e.branches prod pre dev⟩)

/-- The branch-slot invariant of the data model: every stored slot value
is a non-empty string. -/
def branchesOk (e : RepoEntry) : Prop := ∀ p ∈ e.branches, p.2 ≠ []

/-- The invariant over a whole registry. -/
def configOk (repos : List (List Char × RepoEntry)) : Prop := ∀ q ∈ repos, branchesOk q.2

/-- The git subprocess invocations the modelled handlers make. -/
inductive GitCmd where
  | remoteUrl : GitCmd
  | commitMsg : List Char → GitCmd
  | log : GitCmd
  | symbolicRef : GitCmd
  | checkout : List Char → GitCmd
  | cherryPick : List Char → GitCmd
  | status : GitCmd
  | checkoutTheirs : GitCmd
  | addAll : GitCmd
  | commitNoEdit : GitCmd
  | push : List Char → GitCmd
deriving DecidableEq, Repr

/-- The environment a handler runs against: the result of the n-th
subprocess call (`Except.error` is a non-zero exit, `Except.ok` the
captured stdout, ignored for `check_call`-style invocations), and the
answer to the n-th `click.prompt`. -/
structure GitEnv where
  run : Nat → GitCmd → Except Unit (List Char)
  promptAnswer : Nat → List Char

/-- Execution state threaded through a handler: subprocess-call count,
prompt count, messages printed so far, git calls made so far. -/
structure St where
  idx : Nat
  pidx : Nat
  msgs : List (List Char)
  calls : List GitCmd
deriving Repr

/-- The state at handler entry. -/
def St.init : St := ⟨0, 0, [], []⟩

/-- Make one git subprocess call. -/
def callGit (env : GitEnv) (s : St) (c : GitCmd) : St × Except Unit (List Char) :=
  (⟨s.idx + 1, s.pidx, s.msgs, s.calls ++ [c]⟩, env.run s.idx c)

/-- `click.echo`. -/
def echo (s : St) (m : List Char) : St := ⟨s.idx, s.pidx, s.msgs ++ [m], s.calls⟩

/-- How a handler run ends: a normal return, or an uncaught exception
escaping the handler (a process crash with traceback). -/
inductive POutcome where
  | done : POutcome
  | crash : POutcome
deriving DecidableEq, Repr

/-- What a handler run produces. -/
structure HandlerResult where
  msgs : List (List Char)
  calls : List GitCmd
  outcome : POutcome
deriving DecidableEq, Repr

/-- `get_current_git_repo` of src/ghopper/cli.py: `git config --get
remote.origin.url`, `None` on failure or empty stripped output. -/
def get_current_git_repo (env : GitEnv) (s : St) : St × Option (List Char) :=
  let r := callGit env s .remoteUrl
  match r.2 with
  | .error _ => (r.1, none)
  | .ok out =>
    let t := pyStrip out
    (r.1, if t.isEmpty then none else some t)

/-- How `resolve_alias_from_context` ends. -/
inductive ResolveRes where
  | ok : List Char → ResolveRes
  | failed : ResolveRes
  | crashed : ResolveRes

/-- `resolve_alias_from_context` of src/ghopper/cli.py.  A falsy alias
argument (absent or empty) falls back to the git context; a
`ValueError` raised by `find_alias_by_repo_url` escapes (`crashed`).
The source's `if not alias:` after the lookup is a truthiness test, so
a found alias that is the empty string is also reported as
"Repo not found in config.". -/
def resolve_alias_from_context (cb : List Char → Bool) (config : Config)
    (alias? : Option (List Char)) (env : GitEnv) (s : St) : St × ResolveRes :=
  if truthyO alias? then (s, .ok (alias?.getD []))
  else
    match get_current_git_repo env s with
    | (s1, none) => (echo s1 "Not in a Git repo or can't detect remote.".data, .failed)
    | (s1, some url) =>
      match find_alias_by_repo_url cb config url with
      | none => (s1, .crashed)
      | some r =>
        if truthyO r then (s1, .ok (r.getD []))
        else (echo s1 "Repo not found in config.".data, .failed)

/-- The `checkout` command handler of src/ghopper/cli.py, from the point
where the registry is loaded.  `branch_key` is one of `prod`, `pre`,
`dev` (enforced by `click.Choice` before the handler runs). -/
def checkout (cb : List Char → Bool) (env : GitEnv) (config : Config)
    (branch_key : List Char) (alias? : Option (List Char)) : HandlerResult :=
  match resolve_alias_from_context cb config alias? env St.init with
  | (s, .crashed) => ⟨s.msgs, s.calls, .crash⟩
  | (s, .failed) => ⟨s.msgs, s.calls, .done⟩
  | (s, .ok al) =>
    match lookupD config.repos al with
    | none =>
      let s1 := echo s ("Alias '".data ++ al ++ "' not found.".data)
      ⟨s1.msgs, s1.calls, .done⟩
    | some repo =>
      let bn? := lookupD repo.branches branch_key
      if truthyO bn? then
        let bn := bn?.getD []
        let r := callGit env s (.checkout bn)
        match r.2 with
        | .error _ =>
          let s1 := echo r.1 ("❌ Failed to checkout branch '".data ++ bn ++ "'".data)
          ⟨s1.msgs, s1.calls, .done⟩
        | .ok _ =>
          let s1 := echo r.1 ("🚀 Switched to ".data ++ branch_key ++ " branch: ".data ++ bn)
          ⟨s1.msgs, s1.calls, .done⟩
      else
        let s1 := echo s ("No '".data ++ branch_key ++ "' branch configured for alias '".data ++ al ++ "'".data)
        ⟨s1.msgs, s1.calls, .done⟩

/-- One iteration of the `commit` handler's target loop (the body of
`for target in target_branches`).  The returned Bool is `true` when the
loop continues to the next target and `false` on an early `return`; no
exception escapes the body (every subprocess call inside it sits in a
`try`). -/
def processTarget (env : GitEnv) (hash target : List Char) (s : St) : St × Bool :=
  let s := echo s ("Cherry-picking commit ".data ++ hash ++ " into ".data ++ target ++ " branch...".data)
  let r1 := callGit env s (.checkout target)
  match r1.2 with
  | .error _ =>
    (echo r1.1 ("❌ ".data ++ target ++ " branch does not exist. Aborting the operation.".data), false)
  | .ok _ =>
    let r2 := callGit env r1.1 (.cherryPick hash)
    match r2.2 with
    | .error _ => (echo r2.1 ("❌ Failed to cherry-pick to ".data ++ target ++ ".".data), false)
    | .ok _ =>
      let r3 := callGit env r2.1 .status
      match r3.2 with
      | .error _ => (echo r3.1 ("❌ Failed to cherry-pick to ".data ++ target ++ ".".data), false)
      | .ok statusOut =>
        if containsSub "both modified".data statusOut then
          let s4 := echo r3.1 "⚠️ Conflict detected. Please resolve conflicts manually.".data
          let ans := pyLower (env.promptAnswer s4.pidx)
          let s5 : St := ⟨s4.idx, s4.pidx + 1, s4.msgs, s4.calls⟩
          if ans = "y".data then
            let s6 := echo s5 "🔧 Resolving conflicts automatically using 'theirs' strategy.".data
            let r4 := callGit env s6 .checkoutTheirs
            match r4.2 with
            | .error _ => (echo r4.1 ("❌ Failed to cherry-pick to ".data ++ target ++ ".".data), false)
            | .ok _ =>
              let r5 := callGit env r4.1 .addAll
              match r5.2 with
              | .error _ => (echo r5.1 ("❌ Failed to cherry-pick to ".data ++ target ++ ".".data), false)
              | .ok _ =>
                let r6 := callGit env r5.1 .commitNoEdit
                match r6.2 with
                | .error _ => (echo r6.1 ("❌ Failed to cherry-pick to ".data ++ target ++ ".".data), false)
                | .ok _ =>
                  let r7 := callGit env r6.1 (.push target)
                  match r7.2 with
                  | .error _ => (echo r7.1 ("❌ Failed to cherry-pick to ".data ++ target ++ ".".data), false)
                  | .ok _ =>
                    (echo r7.1 ("✅ Conflict resolved and changes pushed to ".data ++ target ++ ".".data), true)
          else
            (echo s5 "❌ Aborted. Please resolve conflicts manually and push changes.".data, false)
        else
          let r4 := callGit env r3.1 (.push target)
          match r4.2 with
          | .error _ => (echo r4.1 ("❌ Failed to cherry-pick to ".data ++ target ++ ".".data), false)
          | .ok _ =>
            (echo r4.1 ("✅ Successfully cherry-picked to ".data ++ target ++ " and pushed.".data), true)

/-- The `commit` command handler of src/ghopper/cli.py.  Only the first
`git commit` and the per-target loop bodies sit inside `try` blocks: a
failure of `git log`, `git symbolic-ref`, or the final restore
`git checkout` raises `subprocess.CalledProcessError` out of the handler
(outcome `crash`). -/
def commit (env : GitEnv) (message : List Char) : HandlerResult :=
  let r0 := callGit env St.init (.commitMsg message)
  match r0.2 with
  | .error _ =>
    let s := echo r0.1 "❌ Commit failed. Please check your changes and try again.".data
    ⟨s.msgs, s.calls, .done⟩
  | .ok _ =>
    let s0 := echo r0.1 ("✅ Committed changes with message: '".data ++ message ++ "'".data)
    let r1 := callGit env s0 .log
    match r1.2 with
    | .error _ => ⟨r1.1.msgs, r1.1.calls, .crash⟩
    | .ok out1 =>
      let hash := pyStrip out1
      let r2 := callGit env r1.1 .symbolicRef
      match r2.2 with
      | .error _ => ⟨r2.1.msgs, r2.1.calls, .crash⟩
      | .ok out2 =>
        let branch := pyStrip out2
        let devB := branch ++ "-dev".data
        let preB := branch ++ "-pre-merge".data
        let t1 := processTarget env hash devB r2.1
        if t1.2 then
          let t2 := processTarget env hash preB t1.1
          if t2.2 then
            let r3 := callGit env t2.1 (.checkout branch)
            match r3.2 with
            | .error _ => ⟨r3.1.msgs, r3.1.calls, .crash⟩
            | .ok _ =>
              let s := echo r3.1 ("✅ Cherry-pick complete. Commit ".data ++ hash ++ " added to ".data ++ devB ++ ", ".data ++ preB ++ ".".data)
              ⟨s.msgs, s.calls, .done⟩
          else ⟨t2.1.msgs, t2.1.calls, .done⟩
        else ⟨t1.1.msgs, t1.1.calls, .done⟩

/-- An environment with a fixed prompt answer, for the concrete runs
below. -/
def envT (f : Nat → GitCmd → Except Unit (List Char)) : GitEnv := ⟨f, fun _ => "n".data⟩

/-- C1: all five URL forms — SSH with and without a host alias, HTTPS
with and without `.git`, HTTP with a port and a trailing slash —
normalize to the canonical key `github.com/org/repo`, whatever the
bracketed-host validator does (none of these runs reaches it). -/
theorem norm_equiv_five :
    ∀ cb : List Char → Bool,
      normalize_repo_url cb "git@github.com:org/repo.git".data = some "github.com/org/repo".data ∧
      normalize_repo_url cb "git@github.com-alias:org/repo".data = some "github.com/org/repo".data ∧
      normalize_repo_url cb "https://github.com/org/repo".data = some "github.com/org/repo".data ∧
      normalize_repo_url cb "https://github.com/org/repo.git".data = some "github.com/org/repo".data ∧
      normalize_repo_url cb "http://github.com:443/org/repo/".data = some "github.com/org/repo".data :=
  fun _ => ⟨rfl, rfl, rfl, rfl, rfl⟩

theorem char_toLower_idem (c : Char) : c.toLower.toLower = c.toLower := by
  have key : ∀ m : Nat, m < 55296 → (Char.ofNat m).toNat = m := by
    intro m h
    unfold Char.ofNat
    rw [dif_pos (Or.inl h)]
    rfl
  by_cases h : c.toNat ≥ 65 ∧ c.toNat ≤ 90
  · have h1 : c.toLower = Char.ofNat (c.toNat + 32) := by
      unfold Char.toLower
      rw [if_pos h]
    have h2 : (Char.ofNat (c.toNat + 32)).toNat = c.toNat + 32 := key _ (by omega)
    rw [h1]
    unfold Char.toLower
    rw [h2, if_neg (by omega)]
  · have h1 : c.toLower = c := by
      unfold Char.toLower
      rw [if_neg h]
    rw [h1, h1]

theorem pyLower_idem (l : List Char) : pyLower (pyLower l) = pyLower l := by
  simp [pyLower, List.map_map, Function.comp, char_toLower_idem]

theorem normalize_lower {cb : List Char → Bool} {x y : List Char}
    (h : normalize_repo_url cb x = some y) : pyLower y = y := by
  unfold normalize_repo_url at h
  simp only [] at h
  split at h
  · split at h
    · injection h with h
      rw [← h]
      exact pyLower_idem _
    · injection h with h
      rw [← h]
      exact pyLower_idem _
  · split at h
    · split at h
      · exact absurd h (by simp)
      · injection h with h
        rw [← h]
        exact pyLower_idem _
    · injection h with h
      rw [← h]
      exact pyLower_idem _

/-- C6 counterexample: `normalize_repo_url` is not idempotent on every
string: one application sends `foo.git.git` to `foo.git`, a second
application sends that to `foo`. -/
theorem norm_idem_cex :
    normalize_repo_url cbTrue "foo.git.git".data = some "foo.git".data ∧
    (normalize_repo_url cbTrue "foo.git.git".data).bind (normalize_repo_url cbTrue) =
      some "foo".data ∧
    some "foo".data ≠ some "foo.git".data := by decide

/-- C6 amended: once `normalize_repo_url`'s output is canonical —
already stripped, carrying no `.git` suffix, and not starting with
`git@` or `http` — renormalizing it is a no-op (outputs are always
lowercase, so only the strip, `.git` and branch tests can disturb a
second pass). -/
theorem norm_idem (cb : List Char → Bool) (x y : List Char)
    (h : normalize_repo_url cb x = some y)
    (h1 : pyStrip y = y) (h2 : dotGitEnds y = false)
    (h3 : startsWithL "git@".data y = false) (h4 : startsWithL "http".data y = false) :
    normalize_repo_url cb y = some y := by
  have hl : pyLower y = y := normalize_lower h
  have h3' : startsWithL ['g', 'i', 't', '@'] y = false := h3
  have h4' : startsWithL ['h', 't', 't', 'p'] y = false := h4
  simp only [normalize_repo_url, preprocess, degit, h1, h2, h3', h4']
  simp [hl, h3', h4']

/-- C6 witness: the amended idempotence at a concrete canonical input. -/
theorem norm_idem_witness : normalize_repo_url cbTrue "a".data = some "a".data :=
  norm_idem cbTrue "a".data "a".data (by decide) (by decide) (by decide) (by decide) (by decide)

theorem contains_mem {l : List Char} {c : Char} (h : l.contains c = true) : c ∈ l :=
  List.elem_iff.mp h

theorem pyStripRight_sublist (l : List Char) : (pyStripRight l).Sublist l := by
  unfold pyStripRight
  have h := (List.dropWhile_sublist (l := l.reverse) isPySpace).reverse
  simpa using h

theorem preprocess_sublist (x : List Char) : (preprocess x).Sublist x := by
  have hSR : (pyStrip x).Sublist x := by
    unfold pyStrip pyStripLeft
    exact (pyStripRight_sublist _).trans (List.dropWhile_sublist _)
  unfold preprocess degit
  split
  · exact (List.take_sublist _ _).trans hSR
  · exact hSR

theorem schemeSplit_snd_sublist (l : List Char) : ((schemeSplit l).2).Sublist l := by
  unfold schemeSplit
  simp only []
  split
  · exact List.drop_sublist _ _
  · exact List.Sublist.refl _

theorem netlocSplit_none {cb : List Char → Bool} {r : List Char}
    (h : netlocSplit cb r = none) : '[' ∈ r ∨ ']' ∈ r := by
  unfold netlocSplit at h
  by_cases hpre : startsWithL "//".data r = true
  · rw [if_pos hpre] at h
    simp only [] at h
    have hsub : ((r.drop 2).takeWhile (fun c => !(isNetDelim c))).Sublist r :=
      (List.takeWhile_sublist _).trans (List.drop_sublist _ _)
    split at h
    · rename_i hcond
      simp only [Bool.or_eq_true, Bool.and_eq_true] at hcond
      cases hcond with
      | inl hc => exact Or.inl (List.Sublist.mem (contains_mem hc.1) hsub)
      | inr hc => exact Or.inr (List.Sublist.mem (contains_mem hc.1) hsub)
    · split at h
      · rename_i hboth
        simp only [Bool.and_eq_true] at hboth
        split at h
        · exact absurd h (by simp)
        · exact Or.inl (List.Sublist.mem (contains_mem hboth.1) hsub)
      · exact absurd h (by simp)
  · rw [if_neg hpre] at h
    exact absurd h (by simp)

theorem urlparse_none_bracket {cb : List Char → Bool} {l : List Char}
    (h : urlparse cb l = none) : '[' ∈ l ∨ ']' ∈ l := by
  unfold urlparse at h
  simp only [] at h
  cases hn : netlocSplit cb (schemeSplit (unsafeFilter l)).2 with
  | none =>
    have hs2 : ((schemeSplit (unsafeFilter l)).2).Sublist l :=
      (schemeSplit_snd_sublist _).trans (List.filter_sublist _)
    cases netlocSplit_none hn with
    | inl m => exact Or.inl (List.Sublist.mem m hs2)
    | inr m => exact Or.inr (List.Sublist.mem m hs2)
  | some nl =>
    rw [hn] at h
    exact absurd h (by simp)

/-- C3 counterexample: `normalize_repo_url` is not total: on
`http://[` the netloc `[` has an unbalanced bracket and `urlparse`
raises `ValueError` (in every CPython version), which the function does
not catch. -/
theorem norm_total_cex :
    normalize_repo_url cbTrue "http://[".data = none ∧
    (normalize_repo_url cbTrue "http://[".data).isSome = false := by decide

/-- C3 amended: `normalize_repo_url` returns a string on every input
whose text contains no square bracket (the only failure source is
`urlparse`'s bracketed-host `ValueError`), and every input that is not
recognized as SSH (`git@` prefix with a regex match) or HTTP(S)
degrades to the trimmed, `.git`-stripped input lowercased. -/
theorem norm_total :
    (∀ (cb : List Char → Bool) (x : List Char), '[' ∉ x → ']' ∉ x →
      (normalize_repo_url cb x).isSome = true) ∧
    (∀ (cb : List Char → Bool) (x : List Char),
      (startsWithL "git@".data (preprocess x) = false ∨ sshMatch (preprocess x) = none) →
      startsWithL "http".data (preprocess x) = false →
      normalize_repo_url cb x = some (pyLower (preprocess x))) := by
  constructor
  · intro cb x hx1 hx2
    unfold normalize_repo_url
    simp only []
    split
    · split <;> simp
    · split
      · cases hup : urlparse cb (preprocess x) with
        | none =>
          exfalso
          cases urlparse_none_bracket hup with
          | inl m => exact hx1 (List.Sublist.mem m (preprocess_sublist x))
          | inr m => exact hx2 (List.Sublist.mem m (preprocess_sublist x))
        | some parts => simp
      · simp
  · intro cb x hssh hhttp
    unfold normalize_repo_url
    simp only []
    cases hssh with
    | inl hpre =>
      rw [if_neg (by simp [hpre]), if_neg (by simp [hhttp])]
    | inr hmatch =>
      by_cases hpre : startsWithL "git@".data (preprocess x) = true
      · rw [if_pos hpre, hmatch]
      · rw [if_neg hpre, if_neg (by simp [hhttp])]

/-- C3 witness: the amended totality at concrete inputs: a bracket-free
URL normalizes to a string, and an unrecognized form echoes back
lowercased. -/
theorem norm_total_witness :
    (normalize_repo_url cbTrue "https://github.com/org/repo".data).isSome = true ∧
    normalize_repo_url cbTrue "Hello World".data = some (pyLower (preprocess "Hello World".data)) :=
  ⟨norm_total.1 cbTrue "https://github.com/org/repo".data (by decide) (by decide),
   norm_total.2 cbTrue "Hello World".data (Or.inl (by decide)) (by decide)⟩

theorem findLoop_spec (cb : List Char → Bool) (key : List Char) :
    ∀ repos : List (List Char × RepoEntry),
      (∀ p ∈ repos, (normalize_repo_url cb p.2.url).isSome = true) →
      findLoop cb key repos =
        some ((repos.find? (fun p => normalize_repo_url cb p.2.url == some key)).map
          (fun p => p.1)) := by
  intro repos
  induction repos with
  | nil => intro _; rfl
  | cons p rest ih =>
    intro hall
    have hp : (normalize_repo_url cb p.2.url).isSome = true := hall p (by simp)
    unfold findLoop
    cases hv : normalize_repo_url cb p.2.url with
    | none => rw [hv] at hp; exact absurd hp (by simp)
    | some v =>
      by_cases hveq : v = key
      · subst hveq
        have hb : (normalize_repo_url cb p.2.url == some v) = true := by
          rw [hv]
          simp
        simp [List.find?_cons, hb]
      · have hb : (normalize_repo_url cb p.2.url == some key) = false := by
          rw [hv]
          simp [hveq]
        simp only [List.find?_cons, hb]
        simp only [hveq, if_false, ite_false]
        have := ih (fun q hq => hall q (by simp [hq]))
        simpa using this

/-- C2 counterexample: reverse lookup is not total in the raw URL: on
`http://[` the input's own normalization raises `ValueError` before any
entry is scanned, so even against the empty registry the function does
not return absent. -/
theorem reverse_lookup_cex :
    find_alias_by_repo_url cbTrue ⟨[]⟩ "http://[".data = none ∧
    find_alias_by_repo_url cbTrue ⟨[]⟩ "http://[".data ≠ some none := by decide

/-- C2 amended: whenever the input URL normalizes to a key and every
stored URL normalizes without raising, reverse lookup returns exactly
the first alias (in mapping iteration order) whose stored URL
normalizes to the same key, and absent when none does; in particular a
registry mapping `foo` to `https://github.com/org/repo` resolves
`git@github.com:org/repo.git` to `foo`. -/
theorem reverse_lookup :
    (∀ (cb : List Char → Bool) (repos : List (List Char × RepoEntry)) (url key : List Char),
      normalize_repo_url cb url = some key →
      (∀ p ∈ repos, (normalize_repo_url cb p.2.url).isSome = true) →
      find_alias_by_repo_url cb ⟨repos⟩ url =
        some ((repos.find? (fun p => normalize_repo_url cb p.2.url == some key)).map
          (fun p => p.1))) ∧
    (∀ cb : List Char → Bool,
      find_alias_by_repo_url cb ⟨[("foo".data, ⟨"https://github.com/org/repo".data, []⟩)]⟩
        "git@github.com:org/repo.git".data = some (some "foo".data)) := by
  constructor
  · intro cb repos url key hn hall
    unfold find_alias_by_repo_url
    rw [hn]
    exact findLoop_spec cb key repos hall
  · intro cb
    rfl

/-- C2 witness: the amended reverse-lookup characterization evaluated on
the one-entry `foo` registry. -/
theorem reverse_lookup_witness :
    find_alias_by_repo_url cbTrue ⟨[("foo".data, ⟨"https://github.com/org/repo".data, []⟩)]⟩
      "git@github.com:org/repo.git".data =
      some (([("foo".data, (⟨"https://github.com/org/repo".data, []⟩ : RepoEntry))].find?
        (fun p => normalize_repo_url cbTrue p.2.url == some "github.com/org/repo".data)).map
        (fun p => p.1)) :=
  reverse_lookup.1 cbTrue _ _ _ (by decide) (by decide)

theorem lookupD_mem {V : Type} {l : List (List Char × V)} {k : List Char} {v : V}
    (h : lookupD l k = some v) : ∃ p ∈ l, p.2 = v := by
  induction l with
  | nil => simp [lookupD] at h
  | cons p rest ih =>
    by_cases hp : (p.1 == k) = true
    · simp only [lookupD, hp, if_true, Option.some_inj] at h
      exact ⟨p, by simp, h⟩
    · simp only [lookupD, hp] at h
      simp only [Bool.false_eq_true, if_false] at h
      obtain ⟨q, hq, hqv⟩ := ih h
      exact ⟨q, by simp [hq], hqv⟩

theorem lookupD_append {V : Type} (l m : List (List Char × V)) (k : List Char) :
    lookupD (l ++ m) k = (lookupD l k).or (lookupD m k) := by
  induction l with
  | nil => simp [lookupD]
  | cons p rest ih =>
    by_cases hp : (p.1 == k) = true
    · simp [lookupD, hp]
    · simp only [List.cons_append, lookupD]
      rw [if_neg hp, if_neg hp]
      exact ih

theorem lookupD_map_set_of_any {V : Type} {l : List (List Char × V)} {k : List Char} {v : V}
    (h : l.any (fun p => p.1 == k) = true) :
    lookupD (l.map (fun p => if p.1 == k then (k, v) else p)) k = some v := by
  induction l with
  | nil => simp at h
  | cons p rest ih =>
    simp only [List.any_cons, Bool.or_eq_true] at h
    by_cases hp : (p.1 == k) = true
    · simp [lookupD, hp]
    · have hr : rest.any (fun p => p.1 == k) = true := by
        cases h with
        | inl hh => exact absurd hh hp
        | inr hh => exact hh
      simp only [List.map_cons, if_neg hp, lookupD]
      exact ih hr

theorem lookupD_dictSet_self {V : Type} (l : List (List Char × V)) (k : List Char) (v : V) :
    lookupD (dictSet l k v) k = some v := by
  unfold dictSet
  split
  · rename_i h
    exact lookupD_map_set_of_any h
  · rename_i h
    rw [Bool.not_eq_true] at h
    rw [lookupD_append]
    have hnone : lookupD l k = none := by
      induction l with
      | nil => rfl
      | cons p rest ih =>
        simp only [List.any_cons, Bool.or_eq_false_iff] at h
        simp only [lookupD]
        rw [if_neg (by simp [h.1])]
        exact ih h.2
    rw [hnone]
    simp [lookupD]

theorem lookupD_dictSet_ne {V : Type} (l : List (List Char × V)) (k : List Char) (v : V)
    (k' : List Char) (hne : k' ≠ k) : lookupD (dictSet l k v) k' = lookupD l k' := by
  have hkk : (k == k') = false := by
    rw [beq_eq_false_iff_ne]
    exact fun he => hne he.symm
  unfold dictSet
  split
  · rename_i h
    clear h
    induction l with
    | nil => rfl
    | cons p rest ih =>
      by_cases hp : (p.1 == k) = true
      · have hp1 : p.1 = k := by simpa using hp
        have hh2 : (p.1 == k') = false := by rw [hp1]; exact hkk
        simp only [List.map_cons, if_pos hp, lookupD]
        rw [if_neg (by simp [hkk]), if_neg (by simp [hh2])]
        exact ih
      · simp only [List.map_cons, if_neg hp, lookupD]
        cases hcond : (p.1 == k') with
        | true => rfl
        | false => exact ih
  · rw [lookupD_append]
    have hh : lookupD [(k, v)] k' = none := by
      simp [lookupD, hkk]
    rw [hh]
    simp

theorem dictSet_forall {V : Type} {P : V → Prop} {l : List (List Char × V)} {k : List Char}
    {v : V} (hl : ∀ q ∈ l, P q.2) (hv : P v) : ∀ q ∈ dictSet l k v, P q.2 := by
  unfold dictSet
  split
  · intro q hq
    rw [List.mem_map] at hq
    obtain ⟨p, hp, he⟩ := hq
    by_cases hpk : (p.1 == k) = true
    · rw [if_pos hpk] at he
      rw [← he]
      exact hv
    · rw [if_neg hpk] at he
      rw [← he]
      exact hl p hp
  · intro q hq
    rw [List.mem_append] at hq
    cases hq with
    | inl h => exact hl q h
    | inr h =>
      simp only [List.mem_singleton] at h
      rw [h]
      exact hv

theorem optSlot_ok (name : List Char) (o : Option (List Char)) :
    ∀ kv ∈ optSlot name o, kv.2 ≠ [] := by
  intro kv hkv
  cases o with
  | none => simp [optSlot] at hkv
  | some s =>
    cases hse : s.isEmpty with
    | true => simp [optSlot, hse] at hkv
    | false =>
      simp [optSlot, hse] at hkv
      have hs : s ≠ [] := by
        intro he
        rw [he] at hse
        simp at hse
      rw [hkv]
      exact hs

theorem mkBranches_ok (p q d : Option (List Char)) : ∀ kv ∈ mkBranches p q d, kv.2 ≠ [] := by
  intro kv hkv
  unfold mkBranches at hkv
  rw [List.append_assoc, List.mem_append, List.mem_append] at hkv
  rcases hkv with h | h | h
  · exact optSlot_ok _ _ kv h
  · exact optSlot_ok _ _ kv h
  · exact optSlot_ok _ _ kv h

theorem modifyStep_ok {b : List (List Char × List Char)} (h : ∀ kv ∈ b, kv.2 ≠ [])
    (name : List Char) (o : Option (List Char)) :
    ∀ kv ∈ (if truthyO o then dictSet b name (o.getD []) else b), kv.2 ≠ [] := by
  split
  · rename_i ht
    refine dictSet_forall (P := fun w => w ≠ []) h ?_
    cases o with
    | none => simp [truthyO] at ht
    | some s =>
      simp only [truthyO] at ht
      simp only [Option.getD_some]
      intro he
      rw [he] at ht
      simp at ht
  · exact h

theorem modifyBranches_ok {b : List (List Char × List Char)} (h : ∀ kv ∈ b, kv.2 ≠ [])
    (p q d : Option (List Char)) : ∀ kv ∈ modifyBranches b p q d, kv.2 ≠ [] := by
  unfold modifyBranches
  exact modifyStep_ok (modifyStep_ok (modifyStep_ok h _ p) _ q) _ d

/-- C7: `add` and `modify` preserve the branch-slot invariant: every
slot stored in the resulting registry is a non-empty string (falsy
supplied values are filtered by `add`'s comprehension and skipped by
`modify`'s `if` guards). -/
theorem slots_invariant (cb : List Char → Bool) (repos : List (List Char × RepoEntry))
    (al? : Option (List Char)) (url : List Char) (p q d : Option (List Char))
    (hinv : configOk repos) :
    (∀ repos', addRepos cb repos al? url p q d = some repos' → configOk repos') ∧
    (∀ (al : List Char) (p2 q2 d2 : Option (List Char)) (repos'' : List (List Char × RepoEntry)),
      modifyRepos repos al p2 q2 d2 = some repos'' → configOk repos'') := by
  constructor
  · intro repos' hadd
    unfold addRepos at hadd
    cases hn : normalize_repo_url cb url with
    | none =>
      rw [hn] at hadd
      exact absurd hadd (by simp)
    | some nu =>
      rw [hn] at hadd
      simp only [] at hadd
      injection hadd with hadd
      rw [← hadd]
      exact dictSet_forall (P := branchesOk) hinv (mkBranches_ok p q d)
  · intro al p2 q2 d2 repos'' hmod
    unfold modifyRepos at hmod
    cases hl : lookupD repos al with
    | none =>
      rw [hl] at hmod
      exact absurd hmod (by simp)
    | some e =>
      rw [hl] at hmod
      injection hmod with hmod
      rw [← hmod]
      have he : branchesOk e := by
        obtain ⟨pr, hpr, hpe⟩ := lookupD_mem hl
        rw [← hpe]
        exact hinv pr hpr
      exact dictSet_forall (P := branchesOk) hinv (modifyBranches_ok he p2 q2 d2)

/-- C7 witness: the invariant holds on the registry `add` produces from
the empty registry with one truthy slot. -/
theorem slots_invariant_witness :
    configOk [("repo".data,
      (⟨"https://github.com/x/repo".data, [("prod".data, "p".data)]⟩ : RepoEntry))] :=
  (slots_invariant cbTrue [] none "https://github.com/x/repo".data (some "p".data) none none
    (fun a ha => absurd ha (List.not_mem_nil a))).1 _ (by decide)

theorem modifyStep_lookup_ne (b : List (List Char × List Char)) (name : List Char)
    (o : Option (List Char)) (k : List Char) (hk : k ≠ name) :
    lookupD (if truthyO o then dictSet b name (o.getD []) else b) k = lookupD b k := by
  split
  · exact lookupD_dictSet_ne b name _ k hk
  · rfl

theorem modifyBranches_prod (b : List (List Char × List Char)) (p q d : Option (List Char)) :
    lookupD (modifyBranches b p q d) "prod".data =
      if truthyO p then some (p.getD []) else lookupD b "prod".data := by
  unfold modifyBranches
  rw [modifyStep_lookup_ne _ _ d _ (by decide), modifyStep_lookup_ne _ _ q _ (by decide)]
  split
  · exact lookupD_dictSet_self b _ _
  · rfl

theorem modifyBranches_pre (b : List (List Char × List Char)) (p q d : Option (List Char)) :
    lookupD (modifyBranches b p q d) "pre".data =
      if truthyO q then some (q.getD []) else lookupD b "pre".data := by
  unfold modifyBranches
  rw [modifyStep_lookup_ne _ _ d _ (by decide)]
  split
  · exact lookupD_dictSet_self _ _ _
  · exact modifyStep_lookup_ne _ _ p _ (by decide)

theorem modifyBranches_dev (b : List (List Char × List Char)) (p q d : Option (List Char)) :
    lookupD (modifyBranches b p q d) "dev".data =
      if truthyO d then some (d.getD []) else lookupD b "dev".data := by
  unfold modifyBranches
  simp only []
  by_cases hd : truthyO d = true
  · rw [if_pos hd, if_pos hd]
    exact lookupD_dictSet_self _ _ _
  · rw [if_neg hd, if_neg hd]
    rw [modifyStep_lookup_ne _ _ q _ (by decide)]
    exact modifyStep_lookup_ne _ _ p _ (by decide)

theorem modifyBranches_other (b : List (List Char × List Char)) (p q d : Option (List Char))
    (k : List Char) (h1 : k ≠ "prod".data) (h2 : k ≠ "pre".data) (h3 : k ≠ "dev".data) :
    lookupD (modifyBranches b p q d) k = lookupD b k := by
  unfold modifyBranches
  rw [modifyStep_lookup_ne _ _ d _ h3, modifyStep_lookup_ne _ _ q _ h2,
    modifyStep_lookup_ne _ _ p _ h1]

/-- C8: `modify` overwrites exactly the supplied (truthy) branch slots
of the resolved entry: the persisted registry replaces that entry in
place with the same `url`, slots that were not supplied keep their
previous value (as do non-slot keys), and every other alias maps to its
previous entry unchanged. -/
theorem modify_frame (repos : List (List Char × RepoEntry)) (al : List Char)
    (p q d : Option (List Char)) (e : RepoEntry) (hl : lookupD repos al = some e) :
    modifyRepos repos al p q d =
      some (dictSet repos al ⟨e.url, modifyBranches e.branches p q d⟩) ∧
    lookupD (dictSet repos al ⟨e.url, modifyBranches e.branches p q d⟩) al =
      some ⟨e.url, modifyBranches e.branches p q d⟩ ∧
    (∀ a : List Char, a ≠ al →
      lookupD (dictSet repos al ⟨e.url, modifyBranches e.branches p q d⟩) a =
        lookupD repos a) ∧
    lookupD (modifyBranches e.branches p q d) "prod".data =
      (if truthyO p then some (p.getD []) else lookupD e.branches "prod".data) ∧
    lookupD (modifyBranches e.branches p q d) "pre".data =
      (if truthyO q then some (q.getD []) else lookupD e.branches "pre".data) ∧
    lookupD (modifyBranches e.branches p q d) "dev".data =
      (if truthyO d then some (d.getD []) else lookupD e.branches "dev".data) ∧
    (∀ k : List Char, k ≠ "prod".data → k ≠ "pre".data → k ≠ "dev".data →
      lookupD (modifyBranches e.branches p q d) k = lookupD e.branches k) := by
  refine ⟨?_, lookupD_dictSet_self _ _ _, ?_, modifyBranches_prod _ _ _ _,
    modifyBranches_pre _ _ _ _, modifyBranches_dev _ _ _ _, ?_⟩
  · unfold modifyRepos
    rw [hl]
  · intro a ha
    exact lookupD_dictSet_ne _ _ _ _ ha
  · intro k h1 h2 h3
    exact modifyBranches_other _ _ _ _ _ h1 h2 h3

/-- C8 witness: the frame property evaluated on a one-entry registry
with only the `prod` slot supplied. -/
theorem modify_frame_witness :
    modifyRepos [("a".data, (⟨"u".data, [("prod".data, "x".data)]⟩ : RepoEntry))] "a".data
      (some "y".data) none none =
      some (dictSet [("a".data, (⟨"u".data, [("prod".data, "x".data)]⟩ : RepoEntry))] "a".data
        ⟨"u".data, modifyBranches [("prod".data, "x".data)] (some "y".data) none none⟩) :=
  (modify_frame [("a".data, (⟨"u".data, [("prod".data, "x".data)]⟩ : RepoEntry))] "a".data
    (some "y".data) none none ⟨"u".data, [("prod".data, "x".data)]⟩ (by decide)).1

/-- C9 counterexample: with no explicit alias, the `checkout` handler
resolves the alias from context, which runs `git config --get
remote.origin.url` — a git invocation — before reporting the missing
slot, so "performs no git invocation" fails on the context path. -/
theorem checkout_missing_slot_cex :
    checkout cbTrue (envT fun _ _ => .ok "https://github.com/org/repo".data)
      ⟨[("a".data, ⟨"https://github.com/org/repo".data, [("dev".data, "d".data)]⟩)]⟩
      "prod".data none =
      ⟨["No 'prod' branch configured for alias 'a'".data], [.remoteUrl], .done⟩ ∧
    ([GitCmd.remoteUrl] : List GitCmd) ≠ [] := by decide

/-- C9 amended: when the resolved entry's branches mapping lacks the
requested slot, `checkout` reports the configuration error and never
runs `git checkout`; with an explicit alias it performs no git
invocation at all, while context resolution (which only yields a
non-empty alias — a found falsy alias is reported as not in the
config) first runs exactly the one `git config --get
remote.origin.url` lookup. -/
theorem checkout_missing_slot :
    (∀ (cb : List Char → Bool) (env : GitEnv) (cfg : Config) (key a : List Char) (e : RepoEntry),
      a ≠ [] → lookupD cfg.repos a = some e → lookupD e.branches key = none →
      checkout cb env cfg key (some a) =
        ⟨["No '".data ++ key ++ "' branch configured for alias '".data ++ a ++ "'".data],
         [], .done⟩) ∧
    (∀ (cb : List Char → Bool) (env : GitEnv) (cfg : Config) (key u a : List Char) (e : RepoEntry),
      a ≠ [] →
      env.run 0 .remoteUrl = .ok u → pyStrip u ≠ [] →
      find_alias_by_repo_url cb cfg (pyStrip u) = some (some a) →
      lookupD cfg.repos a = some e → lookupD e.branches key = none →
      checkout cb env cfg key none =
        ⟨["No '".data ++ key ++ "' branch configured for alias '".data ++ a ++ "'".data],
         [.remoteUrl], .done⟩) := by
  constructor
  · intro cb env cfg key a e ha hle hbk
    simp [checkout, resolve_alias_from_context, truthyO, hle, hbk, ha, echo, St.init,
      List.isEmpty_iff]
  · intro cb env cfg key u a e ha hrun hu hfind hle hbk
    simp [checkout, resolve_alias_from_context, truthyO, get_current_git_repo, callGit,
      St.init, hrun, hu, hfind, hle, hbk, ha, echo, List.isEmpty_iff]

/-- C9 witness: the explicit-alias conjunct at a concrete registry whose
entry has only `dev` configured and `checkout prod` requested. -/
theorem checkout_missing_slot_witness :
    checkout cbTrue (envT fun _ _ => .ok "x".data)
      ⟨[("a".data, ⟨"u".data, [("dev".data, "d".data)]⟩)]⟩ "prod".data (some "a".data) =
      ⟨["No 'prod' branch configured for alias 'a'".data], [], .done⟩ :=
  checkout_missing_slot.1 cbTrue (envT fun _ _ => .ok "x".data)
    ⟨[("a".data, ⟨"u".data, [("dev".data, "d".data)]⟩)]⟩ "prod".data "a".data
    ⟨"u".data, [("dev".data, "d".data)]⟩ (by decide) (by decide) (by decide)

/-- C4 counterexample: the `git log -n1` call of the `commit` handler is
not inside any `try`: when it exits non-zero the
`subprocess.CalledProcessError` escapes the handler (a crash), so not
every git failure is caught. -/
theorem commit_catches_cex :
    (commit (envT fun _ c => if c = .log then .error () else .ok "x".data) "m".data).outcome
      = .crash := by decide

/-- C4 amended: failures of the initial `git commit` and of every git
call inside the target loop (`checkout`, `cherry-pick`, `status`, the
conflict-resolution calls, `push`) are caught and reported; but
`git log`, `git symbolic-ref`, and the final restore `git checkout` are
unguarded: an uncaught crash can only come from one of those three call
sites (first conjunct), and each of the three concrete escapes is
exhibited, as is a caught cherry-pick failure. -/
theorem exists_checkout_getLast (s : List GitCmd) (b : List Char) :
    ∃ b' : List Char, (s ++ [GitCmd.checkout b]).getLast? = some (.checkout b') :=
  ⟨b, List.getLast?_concat _⟩

theorem commit_catches :
    (∀ (env : GitEnv) (m : List Char),
      (commit env m).outcome = .crash →
      (commit env m).calls.getLast? = some .log ∨
      (commit env m).calls.getLast? = some .symbolicRef ∨
      (∃ b : List Char, (commit env m).calls.getLast? = some (.checkout b))) ∧
    (commit (envT fun _ c => if c = .symbolicRef then .error () else .ok "x".data)
      "m".data).outcome = .crash ∧
    (commit (envT fun k _ => if k = 11 then .error () else .ok "x".data)
      "m".data).outcome = .crash ∧
    (commit (envT fun k _ => if k = 4 then .error () else .ok "x".data)
      "m".data).outcome = .done ∧
    "❌ Failed to cherry-pick to x-dev.".data ∈
      (commit (envT fun k _ => if k = 4 then .error () else .ok "x".data) "m".data).msgs := by
  refine ⟨?_, by decide, by decide, by decide, by decide⟩
  intro env m
  unfold commit
  simp only []
  split
  · intro hc
    simp [echo] at hc
  · split
    · intro _
      left
      simp [callGit]
    · split
      · intro _
        right
        left
        simp [callGit]
      · split
        · split
          · split
            · intro _
              right
              right
              simp only [callGit]
              exact exists_checkout_getLast _ _
            · intro hc
              simp [echo] at hc
          · intro hc
            simp at hc
        · intro hc
          simp at hc

/-- C4 witness: the crash-source characterization applied to the run in
which `git symbolic-ref` fails. -/
theorem commit_catches_witness :
    (commit (envT fun _ c => if c = .symbolicRef then .error () else .ok "x".data)
        "m".data).calls.getLast? = some .log ∨
    (commit (envT fun _ c => if c = .symbolicRef then .error () else .ok "x".data)
        "m".data).calls.getLast? = some .symbolicRef ∨
    (∃ b : List Char,
      (commit (envT fun _ c => if c = .symbolicRef then .error () else .ok "x".data)
        "m".data).calls.getLast? = some (.checkout b)) :=
  commit_catches.1 (envT fun _ c => if c = .symbolicRef then .error () else .ok "x".data)
    "m".data (by decide)

/-- Every checkout the target-loop body performs is of the loop's own
target branch, and the body only appends to the call trace. -/
theorem processTarget_calls_sub (env : GitEnv) (h t : List Char) (s : St) :
    ∃ tl : List GitCmd, (processTarget env h t s).1.calls = s.calls ++ tl ∧
      ∀ b' : List Char, GitCmd.checkout b' ∈ tl → b' = t := by
  unfold processTarget
  simp only [callGit, echo]
  split
  · exact ⟨[GitCmd.checkout t], by simp, by intro b' hb'; simp at hb'; exact hb'⟩
  · split
    · exact ⟨[GitCmd.checkout t, GitCmd.cherryPick h], by simp,
        by intro b' hb'; simp at hb'; exact hb'⟩
    · split
      · exact ⟨[GitCmd.checkout t, GitCmd.cherryPick h, GitCmd.status], by simp,
          by intro b' hb'; simp at hb'; exact hb'⟩
      · split
        · split
          · split
            · exact ⟨[GitCmd.checkout t, GitCmd.cherryPick h, GitCmd.status,
                GitCmd.checkoutTheirs], by simp,
                by intro b' hb'; simp at hb'; exact hb'⟩
            · split
              · exact ⟨[GitCmd.checkout t, GitCmd.cherryPick h, GitCmd.status,
                  GitCmd.checkoutTheirs, GitCmd.addAll], by simp,
                  by intro b' hb'; simp at hb'; exact hb'⟩
              · split
                · exact ⟨[GitCmd.checkout t, GitCmd.cherryPick h, GitCmd.status,
                    GitCmd.checkoutTheirs, GitCmd.addAll, GitCmd.commitNoEdit], by simp,
                    by intro b' hb'; simp at hb'; exact hb'⟩
                · split
                  · exact ⟨[GitCmd.checkout t, GitCmd.cherryPick h, GitCmd.status,
                      GitCmd.checkoutTheirs, GitCmd.addAll, GitCmd.commitNoEdit,
                      GitCmd.push t], by simp,
                      by intro b' hb'; simp at hb'; exact hb'⟩
                  · exact ⟨[GitCmd.checkout t, GitCmd.cherryPick h, GitCmd.status,
                      GitCmd.checkoutTheirs, GitCmd.addAll, GitCmd.commitNoEdit,
                      GitCmd.push t], by simp,
                      by intro b' hb'; simp at hb'; exact hb'⟩
          · exact ⟨[GitCmd.checkout t, GitCmd.cherryPick h, GitCmd.status], by simp,
              by intro b' hb'; simp at hb'; exact hb'⟩
        · split
          · exact ⟨[GitCmd.checkout t, GitCmd.cherryPick h, GitCmd.status, GitCmd.push t],
              by simp, by intro b' hb'; simp at hb'; exact hb'⟩
          · exact ⟨[GitCmd.checkout t, GitCmd.cherryPick h, GitCmd.status, GitCmd.push t],
              by simp, by intro b' hb'; simp at hb'; exact hb'⟩

/-- When the target-loop body continues to the next target, it has
pushed its target branch. -/
theorem processTarget_true_push (env : GitEnv) (h t : List Char) (s : St) :
    (processTarget env h t s).2 = true →
    GitCmd.push t ∈ (processTarget env h t s).1.calls := by
  unfold processTarget
  simp only [callGit, echo]
  split
  · intro hc; simp at hc
  · split
    · intro hc; simp at hc
    · split
      · intro hc; simp at hc
      · split
        · split
          · split
            · intro hc; simp at hc
            · split
              · intro hc; simp at hc
              · split
                · intro hc; simp at hc
                · split
                  · intro hc; simp at hc
                  · intro _; simp
          · intro hc; simp at hc
        · split
          · intro hc; simp at hc
          · intro _; simp

/-- A checkout of a branch distinct from the loop's target is in the
trace after a loop iteration only if it was there before. -/
theorem target_nocheckout (env : GitEnv) (hash t restore : List Char) (s0 : St)
    (hne : restore ≠ t) (hbase : GitCmd.checkout restore ∉ s0.calls) :
    GitCmd.checkout restore ∉ (processTarget env hash t s0).1.calls := by
  intro hmem
  obtain ⟨tl, hcalls, hck⟩ := processTarget_calls_sub env hash t s0
  rw [hcalls, List.mem_append] at hmem
  rcases hmem with hmem | hmem
  · exact hbase hmem
  · exact hne (hck _ hmem)

/-- After two completed loop iterations both targets' pushes are in the
trace. -/
theorem targets_pushes (env : GitEnv) (hash dev pre : List Char) (s0 : St)
    (hc1 : (processTarget env hash dev s0).2 = true)
    (hc2 : (processTarget env hash pre (processTarget env hash dev s0).1).2 = true) :
    GitCmd.push dev ∈ (processTarget env hash pre (processTarget env hash dev s0).1).1.calls ∧
    GitCmd.push pre ∈ (processTarget env hash pre (processTarget env hash dev s0).1).1.calls := by
  constructor
  · obtain ⟨tl2, hcalls2, -⟩ :=
      processTarget_calls_sub env hash pre (processTarget env hash dev s0).1
    rw [hcalls2, List.mem_append]
    exact Or.inl (processTarget_true_push env hash dev s0 hc1)
  · exact processTarget_true_push env hash pre _ hc2

/-- C5: in the `commit` target sequence, when the first target
(`<branch>-dev`) is checked out, cherry-picked and pushed cleanly and
the checkout of the second target (`<branch>-pre-merge`) then fails,
the run ends with the abort report and exactly the eight listed calls:
the push to the first target stays in the trace (nothing reverts it),
and no cherry-pick or push of the second target ever happens (second
conjunct: the failed checkout is the trace's last call; third conjunct:
no push of the second target is in the trace).  The final conjunct is
the terminal-success requirement: whenever the run reaches the restore
checkout of the original branch, both targets were pushed. -/
theorem commit_partial_failure :
    (∀ (env : GitEnv) (m h b w0 w3 w4 s5 w6 : List Char),
      env.run 0 (.commitMsg m) = .ok w0 →
      env.run 1 .log = .ok h →
      env.run 2 .symbolicRef = .ok b →
      env.run 3 (.checkout (pyStrip b ++ "-dev".data)) = .ok w3 →
      env.run 4 (.cherryPick (pyStrip h)) = .ok w4 →
      env.run 5 .status = .ok s5 →
      containsSub "both modified".data s5 = false →
      env.run 6 (.push (pyStrip b ++ "-dev".data)) = .ok w6 →
      env.run 7 (.checkout (pyStrip b ++ "-pre-merge".data)) = .error () →
      commit env m =
        ⟨["✅ Committed changes with message: '".data ++ m ++ "'".data,
          "Cherry-picking commit ".data ++ pyStrip h ++ " into ".data ++
            (pyStrip b ++ "-dev".data) ++ " branch...".data,
          "✅ Successfully cherry-picked to ".data ++ (pyStrip b ++ "-dev".data) ++
            " and pushed.".data,
          "Cherry-picking commit ".data ++ pyStrip h ++ " into ".data ++
            (pyStrip b ++ "-pre-merge".data) ++ " branch...".data,
          "❌ ".data ++ (pyStrip b ++ "-pre-merge".data) ++
            " branch does not exist. Aborting the operation.".data],
         [.commitMsg m, .log, .symbolicRef, .checkout (pyStrip b ++ "-dev".data),
          .cherryPick (pyStrip h), .status, .push (pyStrip b ++ "-dev".data),
          .checkout (pyStrip b ++ "-pre-merge".data)],
         .done⟩ ∧
      GitCmd.push (pyStrip b ++ "-pre-merge".data) ∉
        ([.commitMsg m, .log, .symbolicRef, .checkout (pyStrip b ++ "-dev".data),
          .cherryPick (pyStrip h), .status, .push (pyStrip b ++ "-dev".data),
          .checkout (pyStrip b ++ "-pre-merge".data)] : List GitCmd)) ∧
    (∀ (env : GitEnv) (m b : List Char),
      env.run 2 .symbolicRef = .ok b →
      GitCmd.checkout (pyStrip b) ∈ (commit env m).calls →
      GitCmd.push (pyStrip b ++ "-dev".data) ∈ (commit env m).calls ∧
      GitCmd.push (pyStrip b ++ "-pre-merge".data) ∈ (commit env m).calls) := by
  constructor
  · intro env m h b w0 w3 w4 s5 w6 h0 h1 h2 h3 h4 h5 hstat h6 h7
    constructor
    · simp [commit, processTarget, callGit, echo, St.init, h0, h1, h2, h3, h4, h5,
        hstat, h6, h7]
    · have hne : pyStrip b ++ "-pre-merge".data ≠ pyStrip b ++ "-dev".data := by
        intro he
        exact absurd (List.append_cancel_left he) (by decide)
      simp [hne]
  · intro env m b hsym
    have hdev : pyStrip b ≠ pyStrip b ++ "-dev".data := by
      intro he
      rw [List.self_eq_append_right] at he
      exact absurd he (by decide)
    have hpre : pyStrip b ≠ pyStrip b ++ "-pre-merge".data := by
      intro he
      rw [List.self_eq_append_right] at he
      exact absurd he (by decide)
    unfold commit
    simp only [callGit, echo, St.init, Nat.reduceAdd, Nat.zero_add]
    split
    · intro hmem
      simp at hmem
    · split
      · intro hmem
        simp at hmem
      · split
        · intro hmem
          simp at hmem
        · rename_i x1 out1 heq1 x2 out2 heq2
          rw [hsym] at heq2
          injection heq2 with heq2
          subst heq2
          split
          · rename_i hc1
            split
            · rename_i hc2
              have hp := targets_pushes env (pyStrip out1) (pyStrip b ++ "-dev".data)
                (pyStrip b ++ "-pre-merge".data) _ hc1 hc2
              split
              · intro _
                exact ⟨List.mem_append.mpr (Or.inl hp.1), List.mem_append.mpr (Or.inl hp.2)⟩
              · intro _
                exact ⟨List.mem_append.mpr (Or.inl hp.1), List.mem_append.mpr (Or.inl hp.2)⟩
            · intro hmem
              exact absurd hmem
                (target_nocheckout env (pyStrip out1) (pyStrip b ++ "-pre-merge".data)
                  (pyStrip b) _ hpre
                  (target_nocheckout env (pyStrip out1) (pyStrip b ++ "-dev".data)
                    (pyStrip b) _ hdev (by intro h0; simp at h0)))
          · intro hmem
            exact absurd hmem
              (target_nocheckout env (pyStrip out1) (pyStrip b ++ "-dev".data)
                (pyStrip b) _ hdev (by intro h0; simp at h0))

/-- C5 witness: the partial-failure scenario at a concrete environment
in which call 7 (the checkout of the second target) fails. -/
theorem commit_partial_failure_witness :
    commit (envT fun k _ => if k = 7 then .error () else .ok "x".data) "m".data =
      ⟨["✅ Committed changes with message: 'm'".data,
        "Cherry-picking commit x into x-dev branch...".data,
        "✅ Successfully cherry-picked to x-dev and pushed.".data,
        "Cherry-picking commit x into x-pre-merge branch...".data,
        "❌ x-pre-merge branch does not exist. Aborting the operation.".data],
       [.commitMsg "m".data, .log, .symbolicRef, .checkout "x-dev".data,
        .cherryPick "x".data, .status, .push "x-dev".data, .checkout "x-pre-merge".data],
       .done⟩ ∧
    GitCmd.push "x-pre-merge".data ∉
      ([.commitMsg "m".data, .log, .symbolicRef, .checkout "x-dev".data,
        .cherryPick "x".data, .status, .push "x-dev".data,
        .checkout "x-pre-merge".data] : List GitCmd) :=
  commit_partial_failure.1 (envT fun k _ => if k = 7 then .error () else .ok "x".data)
    "m".data "x".data "x".data "x".data "x".data "x".data "x".data "x".data
    rfl rfl rfl rfl rfl rfl (by decide) rfl rfl

theorem dropWhile_head_false {p : Char → Bool} {l : List Char}
    (h : ∀ c, l.head? = some c → p c = false) : l.dropWhile p = l := by
  cases l with
  | nil => rfl
  | cons a t => rw [List.dropWhile_cons, if_neg (by simp [h a rfl])]

theorem takeWhile_head_false {p : Char → Bool} {l : List Char}
    (h : ∀ c, l.head? = some c → p c = false) : l.takeWhile p = [] := by
  cases l with
  | nil => rfl
  | cons a t => rw [List.takeWhile_cons, if_neg (by simp [h a rfl])]

theorem dropWhile_append_of_ne {p : Char → Bool} {l1 : List Char} (l2 : List Char)
    (h : l1.dropWhile p ≠ []) : (l1 ++ l2).dropWhile p = l1.dropWhile p ++ l2 := by
  induction l1 with
  | nil => exact absurd rfl h
  | cons a t ih =>
    rw [List.dropWhile_cons] at h
    rw [List.cons_append, List.dropWhile_cons, List.dropWhile_cons]
    by_cases hpa : p a = true
    · rw [if_pos hpa] at h
      rw [if_pos hpa, if_pos hpa]
      exact ih h
    · rw [if_neg hpa, if_neg hpa]
      rw [List.cons_append]

theorem dropWhile_ne_nil_of_exists {p : Char → Bool} {l : List Char}
    (h : ∃ c ∈ l, p c = false) : l.dropWhile p ≠ [] := by
  induction l with
  | nil => simp at h
  | cons a t ih =>
    rw [List.dropWhile_cons]
    by_cases hpa : p a = true
    · rw [if_pos hpa]
      apply ih
      obtain ⟨c, hc, hcp⟩ := h
      rcases List.mem_cons.mp hc with rfl | hct
      · rw [hpa] at hcp
        exact absurd hcp (by simp)
      · exact ⟨c, hct, hcp⟩
    · rw [if_neg hpa]
      simp

theorem takeWhile_append_all {p : Char → Bool} {l1 : List Char} (l2 : List Char)
    (h : ∀ c ∈ l1, p c = true) : (l1 ++ l2).takeWhile p = l1 ++ l2.takeWhile p := by
  induction l1 with
  | nil => rfl
  | cons a t ih =>
    rw [List.cons_append, List.takeWhile_cons, if_pos (h a (by simp)), List.cons_append]
    rw [ih (fun c hc => h c (by simp [hc]))]

theorem dropWhile_append_all {p : Char → Bool} {l1 : List Char} (l2 : List Char)
    (h : ∀ c ∈ l1, p c = true) : (l1 ++ l2).dropWhile p = l2.dropWhile p := by
  induction l1 with
  | nil => rfl
  | cons a t ih =>
    rw [List.cons_append, List.dropWhile_cons, if_pos (h a (by simp))]
    exact ih (fun c hc => h c (by simp [hc]))

theorem startsWithL_append_self (p t : List Char) : startsWithL p (p ++ t) = true := by
  induction p with
  | nil => rfl
  | cons a ps ih => simp [startsWithL, ih]

theorem startsWithL_take {p : List Char} : ∀ {l : List Char},
    startsWithL p l = true → l.take p.length = p := by
  induction p with
  | nil => intro l _; rfl
  | cons a ps ih =>
    intro l h
    cases l with
    | nil => simp [startsWithL] at h
    | cons b t =>
      simp only [startsWithL, Bool.and_eq_true, beq_iff_eq] at h
      obtain ⟨hab, h2⟩ := h
      simp only [List.length_cons, List.take_succ_cons, hab]
      rw [ih h2]

theorem prefix_of_startsWithL_append {l1 : List Char} : ∀ {pre l2 : List Char},
    startsWithL pre (l1 ++ l2) = true → l1.length ≤ pre.length →
    startsWithL l1 pre = true := by
  induction l1 with
  | nil => intro pre l2 _ _; rfl
  | cons a t ih =>
    intro pre l2 h hlen
    cases pre with
    | nil => simp at hlen
    | cons b q =>
      simp only [List.cons_append, startsWithL, Bool.and_eq_true, beq_iff_eq] at h ⊢
      obtain ⟨hb, h2⟩ := h
      exact ⟨hb.symm, ih h2 (by simpa using hlen)⟩

theorem head?_append_of_ne {l1 l2 : List Char} (h : l1 ≠ []) :
    (l1 ++ l2).head? = l1.head? := by
  cases l1 with
  | nil => exact absurd rfl h
  | cons a t => rfl

theorem sshMatch_concat (host path J : List Char)
    (hh : host ≠ []) (hhc : ∀ c ∈ host, isHostChar c = true)
    (hp : path ≠ []) (hpc : ∀ c ∈ path, isPathChar c = true)
    (hJ : ∀ c, J.head? = some c → isPathChar c = false) :
    sshMatch ("git@".data ++ (host ++ ':' :: (path ++ J))) = some (host, path) := by
  unfold sshMatch
  rw [if_pos (startsWithL_append_self _ _)]
  have hdrop : ("git@".data ++ (host ++ ':' :: (path ++ J))).drop 4 =
      host ++ ':' :: (path ++ J) := rfl
  rw [hdrop]
  have htw : (host ++ ':' :: (path ++ J)).takeWhile isHostChar = host := by
    rw [takeWhile_append_all _ hhc, List.takeWhile_cons, if_neg (by decide)]
    simp
  have hdw : (host ++ ':' :: (path ++ J)).dropWhile isHostChar = ':' :: (path ++ J) := by
    rw [dropWhile_append_all _ hhc, List.dropWhile_cons, if_neg (by decide)]
  simp only []
  rw [htw, hdw]
  simp only []
  have hpw : (path ++ J).takeWhile isPathChar = path := by
    rw [takeWhile_append_all _ hpc, takeWhile_head_false hJ]
    simp
  rw [hpw]
  rw [if_neg (by simp [List.isEmpty_iff, hh, hp])]

theorem normalize_ssh_of_preprocess (cb : List Char → Bool) (x host path J : List Char)
    (hprep : preprocess x = ("git@".data ++ host ++ ':' :: path) ++ J)
    (hh : host ≠ []) (hhc : ∀ c ∈ host, isHostChar c = true)
    (hp : path ≠ []) (hpc : ∀ c ∈ path, isPathChar c = true)
    (hJ : ∀ c, J.head? = some c → isPathChar c = false) :
    normalize_repo_url cb x = some (pyLower (splitHead '-' host ++ '/' :: path)) := by
  have hform : (("git@".data ++ host ++ ':' :: path) ++ J) =
      "git@".data ++ (host ++ ':' :: (path ++ J)) := by
    simp [List.append_assoc]
  unfold normalize_repo_url
  simp only []
  rw [hprep, hform, if_pos (startsWithL_append_self _ _),
    sshMatch_concat host path J hh hhc hp hpc hJ]

/-- C10 counterexample: the decomposition host `h`, path `p.git`, junk
`" "` meets every precondition of the claim (junk starts with a space,
outside the path class), yet the returned key is `h/p`, not the claimed
`<host>/<path>` = `h/p.git`: all-whitespace junk is stripped before
parsing and the then-exposed `.git` of the path is stripped too. -/
theorem ssh_junk_drop_cex :
    ("h".data ≠ [] ∧ (∀ c ∈ "h".data, isHostChar c = true)) ∧
    ("p.git".data ≠ [] ∧ (∀ c ∈ "p.git".data, isPathChar c = true)) ∧
    (" ".data ≠ [] ∧ (∀ c, (" ".data : List Char).head? = some c → isPathChar c = false)) ∧
    normalize_repo_url cbTrue ("git@".data ++ "h".data ++ ':' :: "p.git".data ++ " ".data) =
      some "h/p".data ∧
    some "h/p".data ≠
      some (pyLower (splitHead '-' "h".data ++ '/' :: "p.git".data)) := by decide

/-- C10 amended: the SSH-form regex match is an unanchored prefix match:
for host and path drawn from the regex's character classes and any
trailing junk that begins with a character outside the path class and
contains at least one non-whitespace character, the junk is silently
dropped and the key is the de-aliased host joined with the path,
lowercased.  (Junk that is pure whitespace is instead removed by
`strip()`, which can expose a `.git` suffix of the path — see the
counterexample.) -/
theorem ssh_junk_drop (cb : List Char → Bool) (host path junk : List Char)
    (hh : host ≠ []) (hhc : ∀ c ∈ host, isHostChar c = true)
    (hp : path ≠ []) (hpc : ∀ c ∈ path, isPathChar c = true)
    (hj1 : ∀ c, junk.head? = some c → isPathChar c = false)
    (hj2 : ∃ c ∈ junk, isPySpace c = false) :
    normalize_repo_url cb ("git@".data ++ host ++ ':' :: path ++ junk) =
      some (pyLower (splitHead '-' host ++ '/' :: path)) := by
  have hinput : "git@".data ++ host ++ ':' :: path ++ junk =
      ("git@".data ++ host ++ ':' :: path) ++ junk := by
    simp [List.append_assoc]
  rw [hinput]
  set tr := junk.reverse.dropWhile isPySpace with htrdef
  have hhead : (("git@".data ++ host ++ ':' :: path) ++ junk).head? = some 'g' := rfl
  have h1 : pyStripLeft (("git@".data ++ host ++ ':' :: path) ++ junk) =
      ("git@".data ++ host ++ ':' :: path) ++ junk := by
    apply dropWhile_head_false
    intro c hc
    rw [hhead] at hc
    injection hc with hc
    subst hc
    decide
  have hex : ∃ c ∈ junk.reverse, isPySpace c = false := by
    obtain ⟨c, hc, hcp⟩ := hj2
    exact ⟨c, List.mem_reverse.mpr hc, hcp⟩
  have htrne : tr ≠ [] := dropWhile_ne_nil_of_exists hex
  have h2 : pyStripRight (("git@".data ++ host ++ ':' :: path) ++ junk) =
      ("git@".data ++ host ++ ':' :: path) ++ tr.reverse := by
    unfold pyStripRight
    rw [List.reverse_append, dropWhile_append_of_ne _ htrne, List.reverse_append,
      List.reverse_reverse]
  have hps : pyStrip (("git@".data ++ host ++ ':' :: path) ++ junk) =
      ("git@".data ++ host ++ ':' :: path) ++ tr.reverse := by
    unfold pyStrip
    rw [h1, h2]
  have hj'ne : tr.reverse ≠ [] := by simpa using htrne
  obtain ⟨t0, ht0⟩ := @List.dropWhile_suffix Char junk.reverse isPySpace
  have hjunkeq : junk = tr.reverse ++ t0.reverse := by
    have h3 := congrArg List.reverse ht0
    simpa [List.reverse_append] using h3.symm
  have hheads : junk.head? = tr.reverse.head? := by
    conv_lhs => rw [hjunkeq]
    exact head?_append_of_ne hj'ne
  have hJ' : ∀ c, tr.reverse.head? = some c → isPathChar c = false := by
    intro c hc
    apply hj1
    rw [hheads]
    exact hc
  by_cases hg : dotGitEnds (("git@".data ++ host ++ ':' :: path) ++ tr.reverse) = true
  · by_cases hlen : tr.reverse.length ≤ 4
    · exfalso
      unfold dotGitEnds at hg
      rw [List.reverse_append, List.reverse_reverse] at hg
      have hlen2 : tr.length ≤ (".git".data.reverse).length := by
        simpa using hlen
      have hpref : startsWithL tr (".git".data.reverse) = true :=
        prefix_of_startsWithL_append hg hlen2
      have htake : (".git".data.reverse).take tr.length = tr := startsWithL_take hpref
      obtain ⟨c0, hc0⟩ : ∃ c0, tr.reverse.head? = some c0 := by
        cases hcc : tr.reverse with
        | nil => exact absurd hcc hj'ne
        | cons a t => exact ⟨a, rfl⟩
      have hc0path : isPathChar c0 = false := hJ' c0 hc0
      have hc0mem : c0 ∈ tr := by
        have hmr : c0 ∈ tr.reverse := by
          cases hcc : tr.reverse with
          | nil => rw [hcc] at hc0; simp at hc0
          | cons a t =>
            rw [hcc] at hc0
            injection hc0 with hc0
            subst hc0
            simp
        exact List.mem_reverse.mp hmr
      have hc0targ : c0 ∈ ".git".data.reverse := by
        rw [← htake] at hc0mem
        exact List.Sublist.mem hc0mem (List.take_sublist _ _)
      have hc0true : isPathChar c0 = true := by
        have h4 : c0 = 't' ∨ c0 = 'i' ∨ c0 = 'g' ∨ c0 = '.' := by
          simpa using hc0targ
        rcases h4 with rfl | rfl | rfl | rfl <;> decide
      rw [hc0true] at hc0path
      exact absurd hc0path (by simp)
    · have hlA : (("git@".data ++ host ++ ':' :: path) ++ tr.reverse).length - 4 =
          ("git@".data ++ host ++ ':' :: path).length + (tr.reverse.length - 4) := by
        rw [List.length_append]
        omega
      have htake2 : (("git@".data ++ host ++ ':' :: path) ++ tr.reverse).take
          ((("git@".data ++ host ++ ':' :: path) ++ tr.reverse).length - 4) =
          ("git@".data ++ host ++ ':' :: path) ++ tr.reverse.take (tr.reverse.length - 4) := by
        rw [hlA, List.take_append_eq_append_take,
          List.take_of_length_le (by omega), Nat.add_sub_cancel_left]
      have hJhead : (tr.reverse.take (tr.reverse.length - 4)).head? = tr.reverse.head? := by
        cases hcc : tr.reverse with
        | nil => exact absurd hcc hj'ne
        | cons a t =>
          rw [hcc] at hlen
          simp only [List.length_cons] at hlen
          obtain ⟨n', hn'⟩ : ∃ n', (a :: t).length - 4 = n' + 1 := by
            refine ⟨t.length - 4, ?_⟩
            simp only [List.length_cons]
            omega
          rw [hn', List.take_succ_cons]
          simp
      have hJ'' : ∀ c, (tr.reverse.take (tr.reverse.length - 4)).head? = some c →
          isPathChar c = false := by
        intro c hc
        apply hJ'
        rw [← hJhead]
        exact hc
      have hprep : preprocess (("git@".data ++ host ++ ':' :: path) ++ junk) =
          ("git@".data ++ host ++ ':' :: path) ++ tr.reverse.take (tr.reverse.length - 4) := by
        unfold preprocess degit
        rw [hps, if_pos hg, htake2]
      exact normalize_ssh_of_preprocess cb _ host path _ hprep hh hhc hp hpc hJ''
  · have hprep : preprocess (("git@".data ++ host ++ ':' :: path) ++ junk) =
        ("git@".data ++ host ++ ':' :: path) ++ tr.reverse := by
      unfold preprocess degit
      rw [hps, if_neg hg]
    exact normalize_ssh_of_preprocess cb _ host path _ hprep hh hhc hp hpc hJ'

/-- C10 witness: the amended junk-drop property at host `github.com`,
path `org/repo`, junk `" (copy)"`. -/
theorem ssh_junk_drop_witness :
    normalize_repo_url cbTrue
        ("git@".data ++ "github.com".data ++ ':' :: "org/repo".data ++ " (copy)".data) =
      some (pyLower (splitHead '-' "github.com".data ++ '/' :: "org/repo".data)) :=
  ssh_junk_drop cbTrue "github.com".data "org/repo".data " (copy)".data
    (by decide) (by decide) (by decide) (by decide) (by decide) ⟨'(', by decide, by decide⟩

end Ghopper
